import Mathlib

/-!
Shallow embedding of `services/v1/media/media_transcribe.py`.

The embedding covers the two core pieces of the file:

* `resolve_media_path` (source lines 21-54): media reference resolution via
  direct local path, internal-URL remapping, and download fallback.  The
  filesystem is abstracted as a predicate `fs : String → Bool` on rendered
  paths, and the downloader as `dl : String → Except String String`
  (errors model Python exceptions propagating out of `download_file`).
* the subtitle-cue synthesis inside `process_transcribe_media`
  (source lines 82-160), with times modelled as exact rationals (`ℚ`),
  Python lists as `List`, and the final non-direct response branch modelled
  with an explicit local-variable environment so that reads of unassigned
  locals (Python's `UnboundLocalError`) are represented faithfully.

External collaborators (`whisper`, `srt.compose`, `download_file`) are
parameters or are left abstract, exactly as the spec treats them.
-/

set_option autoImplicit false

/-- Decidable equality for `Except`, needed to evaluate the embedded
functions on concrete inputs. -/
instance {ε α : Type} [DecidableEq ε] [DecidableEq α] : DecidableEq (Except ε α) := fun a b =>
  match a, b with
  | Except.error e, Except.error e' =>
      decidable_of_iff (e = e') (by constructor <;> intro h <;> simp_all)
  | Except.error _, Except.ok _ => isFalse (by intro h; cases h)
  | Except.ok _, Except.error _ => isFalse (by intro h; cases h)
  | Except.ok v, Except.ok v' =>
      decidable_of_iff (v = v') (by constructor <;> intro h <;> simp_all)

namespace MediaTranscribe

/-! ### Words of a segment text -/

/-- Split a character list at every character satisfying `p`, keeping
empty pieces. -/
def splitPred (p : Char → Bool) : List Char → List (List Char)
  | [] => [[]]
  | x :: xs =>
      if p x then [] :: splitPred p xs
      else
        match splitPred p xs with
        | [] => [[x]]
        | q :: qs => (x :: q) :: qs

/-- Leading and trailing whitespace removed, as Python `str.strip()`. -/
def stripChars (l : List Char) : List Char :=
  ((l.dropWhile Char.isWhitespace).reverse.dropWhile Char.isWhitespace).reverse

/-- Python `s.strip()`. -/
def pyStrip (s : String) : String := String.mk (stripChars s.data)

/-- Models `segment['text'].strip().split()`: strip, split on whitespace,
drop empty pieces (Python `str.split()` with no argument). -/
def strWords (s : String) : List String :=
  ((splitPred Char.isWhitespace (stripChars s.data)).map (fun l => String.mk l)).filter
    (fun w => !(w == ""))

/-! ### Data model -/

/-- A transcription segment as produced by the model: `start`/`end` times in
seconds and the raw text.  `end_` models the Python key `end`. -/
structure Segment where
  start : ℚ
  end_ : ℚ
  text : String
deriving DecidableEq

/-- A subtitle cue (`srt.Subtitle(index, start, end, text)`). -/
structure Cue where
  index : Nat
  start : ℚ
  end_ : ℚ
  text : String
deriving DecidableEq

/-- A word together with its synthetic `(word_start, word_end)` timing. -/
abbrev TimedWord := String × ℚ × ℚ

/-! ### Word-mode synthesis (source lines 89-115) -/

/-- Models the loop `for i, word in enumerate(words)` of lines 98-102:
`word_start = segment_start + (i * duration_per_word)` and
`word_end = word_start + duration_per_word`. -/
def timeWords (s d : ℚ) (i : Nat) : List String → List TimedWord
  | [] => []
  | w :: ws => (w, s + i * d, s + i * d + d) :: timeWords s d (i + 1) ws

/-- Timed words of one segment (lines 93-102): empty word lists are skipped
by the `if words:` guard, otherwise `duration_per_word` is the segment span
divided by the word count. -/
def segWordsTimed (seg : Segment) : List TimedWord :=
  let words := strWords seg.text
  if words.isEmpty then []
  else timeWords seg.start ((seg.end_ - seg.start) / (words.length : ℚ)) 0 words

/-- The flat `all_words`/`word_timings` sequence accumulated over all
segments (lines 90-102), represented as one list of timed words. -/
def allWordsTimed : List Segment → List TimedWord
  | [] => []
  | seg :: rest => segWordsTimed seg ++ allWordsTimed rest

/-- The `word_end` component of the last element of the nonempty list
`w :: ws`; models `word_timings[min(current_word + len(chunk) - 1,
len(word_timings) - 1)][1]`, which is the end time of the chunk's last word
(the `min` is the identity there because `current_word + len(chunk) - 1`
never exceeds the last index). -/
def lastEnd : TimedWord → List TimedWord → ℚ
  | w, [] => w.2.2
  | _, w' :: ws => lastEnd w' ws

/-- The chunking loop of lines 104-115, with explicit fuel for structural
recursion (each iteration consumes at least one word, so fuel equal to the
word count is enough and the `0, _ :: _` branch is never reached).  `km1` is
`words_per_line - 1`, so each chunk is `w :: rest.take km1`, i.e.
`all_words[current_word : current_word + words_per_line]`; the cue takes
the first word's start, the last word's end, and the words joined by
single spaces; `idx` is `subtitle_index`. -/
def chunkCuesF (km1 : Nat) (idx : Nat) : Nat → List TimedWord → List Cue
  | _, [] => []
  | 0, _ :: _ => []
  | fuel + 1, w :: rest =>
      { index := idx
        start := w.2.1
        end_ := lastEnd w (rest.take km1)
        text := String.intercalate " " ((w :: rest.take km1).map (fun t => t.1)) } ::
      chunkCuesF km1 (idx + 1) fuel (rest.drop km1)

/-- The chunking loop of lines 104-115 (`while current_word < len(all_words)`). -/
def chunkCues (km1 : Nat) (idx : Nat) (ws : List TimedWord) : List Cue :=
  chunkCuesF km1 idx ws.length ws

/-! ### Segment-mode synthesis (source lines 117-122) -/

/-- One cue per segment, in order, text stripped, times copied; `idx` is the
running `subtitle_index`. -/
def segmentCues (idx : Nat) : List Segment → List Cue
  | [] => []
  | seg :: rest =>
      { index := idx, start := seg.start, end_ := seg.end_, text := pyStrip seg.text } ::
      segmentCues (idx + 1) rest

/-- The cue synthesis of lines 85-124 (the value of `srt_subtitles` before
`srt.compose`): word mode when `words_per_line` is present and positive
(Python `words_per_line and words_per_line > 0`), segment mode otherwise. -/
def synthesize (segs : List Segment) (wordsPerLine : Option Int) : List Cue :=
  match wordsPerLine with
  | some k => if 0 < k then chunkCues (k.toNat - 1) 1 (allWordsTimed segs) else segmentCues 1 segs
  | none => segmentCues 1 segs

/-! ### Spec-side definitions, for refinement statements only.

These follow the spec's wording (partition into consecutive chunks,
per-word linear interpolation, chunk-boundary cues) and are compared with
the source-derived definitions above. -/

/-- Modelled from the spec: consecutive chunks of `km1 + 1` elements, the
final chunk possibly shorter; fuel as in `chunkCuesF`. -/
def specChunksF {α : Type} (km1 : Nat) : Nat → List α → List (List α)
  | _, [] => []
  | 0, _ :: _ => []
  | fuel + 1, a :: rest => (a :: rest.take km1) :: specChunksF km1 fuel (rest.drop km1)

/-- Modelled from the spec: partition a list into consecutive chunks of
exactly `k` elements, only the final chunk may be shorter. -/
def specChunks {α : Type} (k : Nat) (l : List α) : List (List α) :=
  specChunksF (k - 1) l.length l

/-- Modelled from the spec: each (nonempty) chunk becomes one cue whose
`start` is the synthetic start of its first word, whose `end` is the
synthetic end of its last word, whose text joins the words with single
spaces, and whose index counts up from `idx`.  (Empty chunks cannot arise
from `specChunks`; the second branch is for totality only.) -/
def specCues (idx : Nat) : List (List TimedWord) → List Cue
  | [] => []
  | [] :: rest => specCues idx rest
  | (w :: c) :: rest =>
      { index := idx, start := w.2.1, end_ := lastEnd w c,
        text := String.intercalate " " ((w :: c).map (fun t => t.1)) } ::
      specCues (idx + 1) rest

/-- Modelled from the spec: word `i` (0-indexed, counting from `i0`) of a
segment with `n` words occupies
`[start + i·(end-start)/n, start + (i+1)·(end-start)/n)`. -/
def specTimeAux (seg : Segment) (n : Nat) (i : Nat) : List String → List TimedWord
  | [] => []
  | w :: rest =>
      (w, seg.start + (i : ℚ) * (seg.end_ - seg.start) / (n : ℚ),
          seg.start + ((i : ℚ) + 1) * (seg.end_ - seg.start) / (n : ℚ)) ::
      specTimeAux seg n (i + 1) rest

/-- Modelled from the spec: the per-word interpolated timings of a segment. -/
def specTimedWords (seg : Segment) : List TimedWord :=
  specTimeAux seg (strWords seg.text).length 0 (strWords seg.text)

/-- The flat whitespace-delimited word sequence across all trimmed segment
texts, in input order. -/
def allWords : List Segment → List String
  | [] => []
  | seg :: rest => strWords seg.text ++ allWords rest

/-- The contribution of `l` to an `intercalate` already under way: `l`
joined with `s`, with one extra leading `s`. -/
def preJoin (s : String) : List String → String
  | [] => ""
  | a :: l => s ++ a ++ preJoin s l

/-! ### Path model

POSIX paths are modelled by their `pathlib` parts: splitting on `/`,
dropping empty components and `.` (as `PurePosixPath` normalisation does).
The abstract filesystem predicate is keyed on the rendered (`str(...)`)
form of a path. -/

/-- `PurePosixPath(s).is_absolute()`: the string starts with `/`. -/
def posixIsAbs (s : String) : Bool :=
  match s.data with
  | c :: _ => c = '/'
  | [] => false

/-- The non-root parts of `PurePosixPath(s)`: components between slashes,
with empty components and `.` dropped. -/
def posixParts (s : String) : List String :=
  ((splitPred (fun c => c = '/') s.data).map (fun l => String.mk l)).filter
    (fun c => !(c == "") && !(c == "."))

/-- Render an absolute path from its parts (`str` of the joined path). -/
def renderAbs (parts : List String) : String :=
  "/" ++ String.intercalate "/" parts

/-- `str(Path(s))` for the paths this code touches: parts joined by `/`,
with a leading `/` when absolute. -/
def renderPath (s : String) : String :=
  (if posixIsAbs s then "/" else "") ++ String.intercalate "/" (posixParts s)

/-- `str(root / rel)` where `rel` is a list of parts. -/
def joinParts (root : String) (rel : List String) : String :=
  renderAbs (posixParts root ++ rel)

/-- `PurePosixPath(s).relative_to("/upload")`, as the list of remaining
parts; `none` models the `ValueError` that the source catches. -/
def relativeToUpload (s : String) : Option (List String) :=
  if posixIsAbs s then
    match posixParts s with
    | "upload" :: rest => some rest
    | _ => none
  else none

/-! ### URL model (`urllib.parse.urlparse` / `unquote`) -/

/-- Characters allowed in a URL scheme after the leading letter. -/
def isSchemeChar (c : Char) : Bool :=
  c.isAlphanum || c = '+' || c = '-' || c = '.'

/-- Split a character list at the first occurrence of `c` (the pieces
before and after it), or `none` when `c` does not occur. -/
def splitOnceChar (c : Char) : List Char → Option (List Char × List Char)
  | [] => none
  | x :: xs =>
      if x = c then some ([], xs)
      else (splitOnceChar c xs).map (fun p => (x :: p.1, p.2))

/-- Take characters until the first one satisfying `stop`, returning the
taken piece and the remaining characters (stop character included). -/
def takeUntilChars (stop : Char → Bool) : List Char → List Char × List Char
  | [] => ([], [])
  | x :: xs =>
      if stop x then ([], x :: xs)
      else
        let p := takeUntilChars stop xs
        (x :: p.1, p.2)

/-- The scheme split of `urlsplit`: a valid scheme is a nonempty run of
scheme characters starting with a letter, terminated by `:`; it is
lowercased, otherwise the input is left whole with an empty scheme. -/
def schemeSplit (l : List Char) : List Char × List Char :=
  match splitOnceChar ':' l with
  | some (pre, post) =>
      if (match pre with | c :: _ => c.isAlpha | [] => false) && pre.all isSchemeChar
      then (pre.map Char.toLower, post)
      else ([], l)
  | none => ([], l)

/-- The components of `urlparse` used by the source. -/
structure UrlParts where
  scheme : String
  netloc : String
  path : String
deriving DecidableEq

/-- `urllib.parse.urlparse`, restricted to the fields the source reads:
scheme, netloc (present only after `//`), and path (up to `?` or `#`). -/
def urlparse (s : String) : UrlParts :=
  let sr := schemeSplit s.data
  let nr :=
    match sr.2 with
    | '/' :: '/' :: r => takeUntilChars (fun c => c = '/' || c = '?' || c = '#') r
    | rest => ([], rest)
  let path := (takeUntilChars (fun c => c = '?' || c = '#') nr.2).1
  ⟨String.mk sr.1, String.mk nr.1, String.mk path⟩

/-- The part of a netloc after its last `@` (dropping userinfo). -/
def afterLastAt (l : List Char) : List Char :=
  match splitOnceChar '@' l.reverse with
  | some (pre, _) => pre.reverse
  | none => l

/-- `urlparse(...).hostname`: netloc with userinfo and port stripped,
lowercased (IPv6 bracket syntax is not modelled; the configured hostname is
a plain DNS name). -/
def hostnameOf (netloc : String) : String :=
  String.mk (((takeUntilChars (fun c => c = ':') (afterLastAt netloc.data)).1).map
    Char.toLower)

/-- Value of a hexadecimal digit character, if any. -/
def hexDigitVal (c : Char) : Option Nat :=
  if '0' ≤ c ∧ c ≤ '9' then some (c.toNat - '0'.toNat)
  else if 'a' ≤ c ∧ c ≤ 'f' then some (c.toNat - 'a'.toNat + 10)
  else if 'A' ≤ c ∧ c ≤ 'F' then some (c.toNat - 'A'.toNat + 10)
  else none

/-- Percent-decoding of `urllib.parse.unquote`, one byte per `%XX`
(multi-byte UTF-8 sequences are modelled per code point; the references in
the claims are ASCII). Invalid escapes are left untouched. -/
def unquoteChars : List Char → List Char
  | '%' :: a :: b :: rest =>
      match hexDigitVal a, hexDigitVal b with
      | some hi, some lo => Char.ofNat (hi * 16 + lo) :: unquoteChars rest
      | _, _ => '%' :: unquoteChars (a :: b :: rest)
  | c :: rest => c :: unquoteChars rest
  | [] => []

/-- `urllib.parse.unquote` on a string. -/
def unquote (s : String) : String := String.mk (unquoteChars s.data)

/-! ### Source resolution (source lines 17-54) -/

/-- Source line 17. -/
def HOSTNAME : String := "ncatoolkit.kingdomautomations.com"

/-- Source line 18 (`UPLOAD_HOST`). -/
def UPLOAD_HOST : String := "/srv/media/upload"

/-- Source line 19 (`UPLOAD_CONT`). -/
def UPLOAD_CONT : String := "/app/media"

/-- Step 2 of `resolve_media_path` (lines 37-49): for an internal
HTTP(S) URL whose hostname equals `HOSTNAME`, strip `/upload` from the
percent-decoded path and return the first of the two mount candidates that
exists; `none` both when the strategy does not apply and when it finds no
file (the `try`/`except: pass` fall-through). -/
def internalCandidate (fs : String → Bool) (media_url : String) : Option String :=
  let parts := urlparse media_url
  if (parts.scheme == "http" || parts.scheme == "https") &&
      (hostnameOf parts.netloc == HOSTNAME) then
    match relativeToUpload (unquote parts.path) with
    | some rel =>
        [UPLOAD_HOST, UPLOAD_CONT].findSome? (fun root =>
          let local_file := joinParts root rel
          if fs local_file then some local_file else none)
    | none => none
  else none

/-- `resolve_media_path` (lines 21-54).  Returns the resolved path and the
`downloaded` flag; a download error propagates as the error of the whole
resolution.  The downloader abstracts `download_file(media_url, ...)`
(the destination directory and random file name are internal to it). -/
def resolve_media_path (fs : String → Bool) (dl : String → Except String String)
    (media_url : String) : Except String (String × Bool) :=
  if posixIsAbs media_url && fs (renderPath media_url) then
    Except.ok (renderPath media_url, false)
  else
    match internalCandidate fs media_url with
    | some local_file => Except.ok (local_file, false)
    | none => (dl media_url).map (fun p => (p, true))

/-! ### Orchestration (`process_transcribe_media`, source lines 56-164) -/

/-- The transcription result fields the source reads. -/
structure TranscriptionResult where
  text : String
  segments : List Segment
deriving DecidableEq

/-- A Python value as assigned to the response filename locals. -/
inductive PyVal where
  | str (s : String)
  | none_
deriving DecidableEq

/-- A Python local-variable environment (most recent assignment first). -/
def Env : Type := List (String × PyVal)

/-- Assign a local variable. -/
def assignVar (env : Env) (n : String) (v : PyVal) : Env := (n, v) :: env

/-- Read a local variable; reading a name that was never assigned raises
`UnboundLocalError`, which propagates out of the function. -/
def readVar (env : Env) (n : String) : Except String PyVal :=
  match env.find? (fun p => p.1 == n) with
  | some p => Except.ok p.2
  | none => Except.error ("UnboundLocalError: " ++ n)

/-- The non-direct response branch (source lines 139-160), with the local
variables modelled explicitly: note that the `else` of the `include_text`
test (line 144) assigns `text_file`, while the `return` at line 160 reads
`text_filename`. -/
def fileResponse (storage : String) (include_text include_srt include_segments : Bool)
    (job_id : String) : Except String (PyVal × PyVal × PyVal) :=
  let env : Env := []
  let env :=
    if include_text then assignVar env "text_filename" (.str (storage ++ "/" ++ job_id ++ ".txt"))
    else assignVar env "text_file" .none_
  let env :=
    if include_srt then assignVar env "srt_filename" (.str (storage ++ "/" ++ job_id ++ ".srt"))
    else assignVar env "srt_filename" .none_
  let env :=
    if include_segments then assignVar env "segments_filename" (.str (storage ++ "/" ++ job_id ++ ".json"))
    else assignVar env "segments_filename" .none_
  do
    let t ← readVar env "text_filename"
    let s ← readVar env "srt_filename"
    let g ← readVar env "segments_filename"
    return (t, s, g)

/-- The value returned by `process_transcribe_media`: either the direct
triple (lines 136-137; the cue list stands for the composed SRT text, since
`srt.compose` is an external pure function of the cues) or the filename
triple of line 160. -/
inductive Artifacts where
  | direct (text : Option String) (srtCues : Option (List Cue))
      (segmentsJson : Option (List Segment))
  | files (v : PyVal × PyVal × PyVal)
deriving DecidableEq

/-- `process_transcribe_media` (lines 56-164) as a function of its
collaborators: the filesystem, the downloader, and the transcriber.  The
second component of the result records whether the downloaded temp file was
removed (lines 129-132); errors model exceptions propagating out (the
`except` block at 162-164 re-raises). -/
def process_transcribe_media (fs : String → Bool) (dl : String → Except String String)
    (tr : String → Except String TranscriptionResult) (media_url : String)
    (include_text include_srt include_segments : Bool) (wordsPerLine : Option Int)
    (direct : Bool) (storage job_id : String) : Except String Artifacts × Bool :=
  match resolve_media_path fs dl media_url with
  | Except.error e => (Except.error e, false)
  | Except.ok (input_filename, downloaded) =>
    match tr input_filename with
    | Except.error e => (Except.error e, false)
    | Except.ok result =>
      let text := if include_text then some result.text else none
      let srt_cues := if include_srt then some (synthesize result.segments wordsPerLine) else none
      let segments_json := if include_segments then some result.segments else none
      let deleted := downloaded && fs input_filename
      if direct then (Except.ok (.direct text srt_cues segments_json), deleted)
      else
        match fileResponse storage include_text include_srt include_segments job_id with
        | Except.ok v => (Except.ok (.files v), deleted)
        | Except.error e => (Except.error e, deleted)

/-! ### Equations for the fuel-based loops -/

theorem chunkCuesF_fuel (km1 : Nat) :
    ∀ fuel fuel' idx (ws : List TimedWord), ws.length ≤ fuel → ws.length ≤ fuel' →
      chunkCuesF km1 idx fuel ws = chunkCuesF km1 idx fuel' ws := by
  intro fuel
  induction fuel with
  | zero =>
    intro fuel' idx ws h h'
    cases ws with
    | nil => cases fuel' <;> rfl
    | cons w rest => simp only [List.length_cons] at h; exact absurd h (by omega)
  | succ fuel ih =>
    intro fuel' idx ws h h'
    cases ws with
    | nil => cases fuel' <;> rfl
    | cons w rest =>
      cases fuel' with
      | zero => simp only [List.length_cons] at h'; exact absurd h' (by omega)
      | succ fuel' =>
        simp only [chunkCuesF]
        congr 1
        apply ih
        · simp only [List.length_drop]
          simp only [List.length_cons] at h
          omega
        · simp only [List.length_drop]
          simp only [List.length_cons] at h'
          omega

theorem chunkCues_nil (km1 idx : Nat) : chunkCues km1 idx [] = [] := rfl

theorem chunkCues_cons (km1 idx : Nat) (w : TimedWord) (rest : List TimedWord) :
    chunkCues km1 idx (w :: rest) =
      { index := idx, start := w.2.1, end_ := lastEnd w (rest.take km1),
        text := String.intercalate " " ((w :: rest.take km1).map (fun t => t.1)) } ::
      chunkCues km1 (idx + 1) (rest.drop km1) := by
  unfold chunkCues
  simp only [List.length_cons, chunkCuesF]
  congr 1
  apply chunkCuesF_fuel
  · simp only [List.length_drop]; omega
  · exact Nat.le_refl _

theorem specChunksF_fuel {α : Type} (km1 : Nat) :
    ∀ fuel fuel' (l : List α), l.length ≤ fuel → l.length ≤ fuel' →
      specChunksF km1 fuel l = specChunksF km1 fuel' l := by
  intro fuel
  induction fuel with
  | zero =>
    intro fuel' l h h'
    cases l with
    | nil => cases fuel' <;> rfl
    | cons a rest => simp only [List.length_cons] at h; exact absurd h (by omega)
  | succ fuel ih =>
    intro fuel' l h h'
    cases l with
    | nil => cases fuel' <;> rfl
    | cons a rest =>
      cases fuel' with
      | zero => simp only [List.length_cons] at h'; exact absurd h' (by omega)
      | succ fuel' =>
        simp only [specChunksF]
        congr 1
        apply ih
        · simp only [List.length_drop]
          simp only [List.length_cons] at h
          omega
        · simp only [List.length_drop]
          simp only [List.length_cons] at h'
          omega

theorem specChunks_nil {α : Type} (k : Nat) : specChunks k ([] : List α) = [] := rfl

theorem specChunks_cons {α : Type} (km1 : Nat) (a : α) (rest : List α) :
    specChunks (km1 + 1) (a :: rest) =
      (a :: rest.take km1) :: specChunks (km1 + 1) (rest.drop km1) := by
  unfold specChunks
  simp only [Nat.add_sub_cancel, List.length_cons, specChunksF]
  congr 1
  apply specChunksF_fuel
  · simp only [List.length_drop]; omega
  · exact Nat.le_refl _

/-- Induction along the chunking recursion: from `a :: rest`, recurse on
`rest.drop km1`. -/
theorem chunkInduction {α : Type} (km1 : Nat) {motive : List α → Prop}
    (nil : motive [])
    (cons : ∀ (a : α) (rest : List α), motive (rest.drop km1) → motive (a :: rest)) :
    ∀ l, motive l := by
  have H : ∀ (n : Nat) (l : List α), l.length ≤ n → motive l := by
    intro n
    induction n with
    | zero =>
      intro l h
      cases l with
      | nil => exact nil
      | cons a rest => simp only [List.length_cons] at h; exact absurd h (by omega)
    | succ n ih =>
      intro l h
      cases l with
      | nil => exact nil
      | cons a rest =>
        refine cons a rest (ih _ ?_)
        simp only [List.length_drop]
        simp only [List.length_cons] at h
        omega
  exact fun l => H l.length l (Nat.le_refl _)

/-! ### Shape lemmas for the word-mode loop -/

theorem chunkCues_length (km1 : Nat) :
    ∀ ws : List TimedWord, ∀ idx,
      (chunkCues km1 idx ws).length = (ws.length + km1) / (km1 + 1) := by
  refine chunkInduction km1 ?_ ?_
  · intro idx
    simp only [chunkCues_nil, List.length_nil, Nat.zero_add]
    exact (Nat.div_eq_of_lt (by omega)).symm
  · intro w rest ih idx
    rw [chunkCues_cons]
    simp only [List.length_cons]
    rw [ih]
    simp only [List.length_drop]
    have h2 : rest.length + 1 + km1 = rest.length + (km1 + 1) := by omega
    rw [h2, Nat.add_div_right _ (Nat.succ_pos km1)]
    rcases Nat.le_total km1 rest.length with h | h
    · have h3 : rest.length - km1 + km1 = rest.length := by omega
      rw [h3]
    · have h0 : rest.length - km1 = 0 := by omega
      rw [h0, Nat.div_eq_of_lt (by omega), Nat.div_eq_of_lt (by omega)]

theorem chunkCues_map_index (km1 : Nat) :
    ∀ ws : List TimedWord, ∀ idx,
      (chunkCues km1 idx ws).map Cue.index =
        List.range' idx (chunkCues km1 idx ws).length := by
  refine chunkInduction km1 ?_ ?_
  · intro idx
    simp [chunkCues_nil]
  · intro w rest ih idx
    rw [chunkCues_cons]
    simp only [List.map_cons, List.length_cons, List.range'_succ]
    rw [ih]

theorem chunkCues_map_text (km1 : Nat) :
    ∀ ws : List TimedWord, ∀ idx,
      (chunkCues km1 idx ws).map Cue.text =
        (specChunks (km1 + 1) ws).map
          (fun c => String.intercalate " " (c.map (fun t => t.1))) := by
  refine chunkInduction km1 ?_ ?_
  · intro idx
    simp [chunkCues_nil, specChunks_nil]
  · intro w rest ih idx
    rw [chunkCues_cons, specChunks_cons]
    simp only [List.map_cons]
    rw [ih]

theorem chunkCues_eq_specCues (km1 : Nat) :
    ∀ ws : List TimedWord, ∀ idx,
      chunkCues km1 idx ws = specCues idx (specChunks (km1 + 1) ws) := by
  refine chunkInduction km1 ?_ ?_
  · intro idx
    simp [chunkCues_nil, specChunks_nil, specCues]
  · intro w rest ih idx
    rw [chunkCues_cons, specChunks_cons]
    simp only [specCues]
    rw [ih]

/-! ### Shape lemmas for the spec-side chunking -/

theorem specChunks_map {α β : Type} (km1 : Nat) (f : α → β) :
    ∀ l : List α,
      specChunks (km1 + 1) (l.map f) = (specChunks (km1 + 1) l).map (List.map f) := by
  refine chunkInduction km1 ?_ ?_
  · simp [specChunks_nil]
  · intro a rest ih
    rw [List.map_cons, specChunks_cons, specChunks_cons]
    rw [← List.map_drop, ih, ← List.map_take]
    simp [List.map_cons]

theorem specChunks_flatten {α : Type} (km1 : Nat) :
    ∀ l : List α, (specChunks (km1 + 1) l).flatten = l := by
  refine chunkInduction km1 ?_ ?_
  · simp [specChunks_nil]
  · intro a rest ih
    rw [specChunks_cons]
    simp only [List.flatten_cons]
    rw [ih]
    simp [List.take_append_drop]

theorem specChunks_eq_nil_iff {α : Type} (km1 : Nat) (l : List α) :
    specChunks (km1 + 1) l = [] ↔ l = [] := by
  cases l with
  | nil => simp [specChunks_nil]
  | cons a rest => rw [specChunks_cons]; simp

theorem specChunks_mem {α : Type} (km1 : Nat) :
    ∀ l : List α, ∀ c ∈ specChunks (km1 + 1) l, c ≠ [] ∧ c.length ≤ km1 + 1 := by
  refine chunkInduction km1 ?_ ?_
  · simp [specChunks_nil]
  · intro a rest ih c hc
    rw [specChunks_cons] at hc
    rcases List.mem_cons.mp hc with hc | hc
    · subst hc
      refine ⟨by simp, ?_⟩
      simp only [List.length_cons, List.length_take]
      omega
    · exact ih c hc

theorem specChunks_dropLast_length {α : Type} (km1 : Nat) :
    ∀ l : List α, ∀ c ∈ (specChunks (km1 + 1) l).dropLast, c.length = km1 + 1 := by
  refine chunkInduction km1 ?_ ?_
  · simp [specChunks_nil]
  · intro a rest ih c hc
    rw [specChunks_cons] at hc
    cases hS : specChunks (km1 + 1) (rest.drop km1) with
    | nil => rw [hS] at hc; simp at hc
    | cons s S =>
      rw [hS, List.dropLast_cons₂] at hc
      have hdrop : rest.drop km1 ≠ [] := by
        intro hd
        rw [hd, specChunks_nil] at hS
        exact List.cons_ne_nil _ _ hS.symm
      have hlen : km1 < rest.length := by
        by_contra hle
        exact hdrop (List.drop_eq_nil_of_le (by omega))
      rcases List.mem_cons.mp hc with hc | hc
      · subst hc
        simp only [List.length_cons, List.length_take]
        omega
      · exact ih c (by rw [hS]; exact hc)

/-! ### Word timing lemmas -/

theorem segWordsTimed_eq (seg : Segment) :
    segWordsTimed seg =
      if (strWords seg.text).isEmpty then []
      else timeWords seg.start
        ((seg.end_ - seg.start) / ((strWords seg.text).length : ℚ)) 0
        (strWords seg.text) := rfl

theorem timeWords_map_fst (s d : ℚ) :
    ∀ (ws : List String) (i : Nat), (timeWords s d i ws).map (fun t => t.1) = ws := by
  intro ws
  induction ws with
  | nil => intro i; rfl
  | cons w ws ih => intro i; simp [timeWords, ih]

theorem segWordsTimed_map_fst (seg : Segment) :
    (segWordsTimed seg).map (fun t => t.1) = strWords seg.text := by
  rw [segWordsTimed_eq]
  by_cases h : (strWords seg.text).isEmpty = true
  · rw [if_pos h]
    rw [List.isEmpty_iff] at h
    rw [h]
    rfl
  · rw [if_neg h]
    exact timeWords_map_fst _ _ _ _

theorem allWordsTimed_map_fst :
    ∀ segs : List Segment, (allWordsTimed segs).map (fun t => t.1) = allWords segs := by
  intro segs
  induction segs with
  | nil => rfl
  | cons seg rest ih =>
    simp only [allWordsTimed, allWords, List.map_append, segWordsTimed_map_fst, ih]

theorem allWordsTimed_length (segs : List Segment) :
    (allWordsTimed segs).length = (allWords segs).length := by
  rw [← allWordsTimed_map_fst segs, List.length_map]

theorem timeWords_eq_specTimeAux (seg : Segment) (n : Nat) :
    ∀ (ws : List String) (i : Nat),
      timeWords seg.start ((seg.end_ - seg.start) / (n : ℚ)) i ws = specTimeAux seg n i ws := by
  intro ws
  induction ws with
  | nil => intro i; rfl
  | cons w ws ih =>
    intro i
    simp only [timeWords, specTimeAux]
    rw [ih]
    congr 1
    simp only [Prod.mk.injEq, true_and]
    constructor
    · ring
    · ring

theorem segWordsTimed_eq_spec (seg : Segment) : segWordsTimed seg = specTimedWords seg := by
  rw [segWordsTimed_eq]
  unfold specTimedWords
  by_cases h : (strWords seg.text).isEmpty = true
  · rw [if_pos h]
    rw [List.isEmpty_iff] at h
    rw [h]
    rfl
  · rw [if_neg h]
    exact timeWords_eq_specTimeAux seg _ _ 0

/-! ### Joining words with spaces -/

theorem intercalate_go_eq (s : String) :
    ∀ (l : List String) (acc : String),
      String.intercalate.go acc s l = acc ++ preJoin s l := by
  intro l
  induction l with
  | nil => intro acc; simp [String.intercalate.go, preJoin]
  | cons a l ih =>
    intro acc
    rw [String.intercalate.go, ih, preJoin]
    simp only [String.append_assoc]

theorem intercalate_cons (s a : String) (l : List String) :
    String.intercalate s (a :: l) = a ++ preJoin s l :=
  intercalate_go_eq s l a

theorem preJoin_append (s : String) (l1 l2 : List String) :
    preJoin s (l1 ++ l2) = preJoin s l1 ++ preJoin s l2 := by
  induction l1 with
  | nil => simp [preJoin]
  | cons a l ih =>
    rw [List.cons_append, preJoin, preJoin, ih]
    simp only [String.append_assoc]

theorem preJoin_of_ne_nil (s : String) (c : List String) (h : c ≠ []) :
    preJoin s c = s ++ String.intercalate s c := by
  cases c with
  | nil => exact absurd rfl h
  | cons a l =>
    rw [preJoin, intercalate_cons]
    simp only [String.append_assoc]

theorem preJoin_map_intercalate (s : String) :
    ∀ LS : List (List String), (∀ c ∈ LS, c ≠ []) →
      preJoin s (LS.map (String.intercalate s)) = preJoin s LS.flatten := by
  intro LS
  induction LS with
  | nil => intro _; rfl
  | cons c LS ih =>
    intro h
    have hc : c ≠ [] := h c (List.mem_cons_self ..)
    simp only [List.map_cons, List.flatten_cons, preJoin, preJoin_append]
    rw [ih (fun x hx => h x (List.mem_cons_of_mem _ hx))]
    rw [preJoin_of_ne_nil s c hc]

theorem intercalate_flatten (s : String) :
    ∀ LS : List (List String), (∀ c ∈ LS, c ≠ []) →
      String.intercalate s (LS.map (String.intercalate s)) =
        String.intercalate s LS.flatten := by
  intro LS
  induction LS with
  | nil => intro _; rfl
  | cons c LS _ =>
    intro h
    have hc : c ≠ [] := h c (List.mem_cons_self ..)
    cases c with
    | nil => exact absurd rfl hc
    | cons a c0 =>
      simp only [List.map_cons, List.flatten_cons, List.cons_append]
      rw [intercalate_cons, intercalate_cons, intercalate_cons]
      rw [preJoin_append, preJoin_map_intercalate s LS
        (fun x hx => h x (List.mem_cons_of_mem _ hx))]
      simp only [String.append_assoc]

/-! ### Ordering lemmas for cue time bounds -/

theorem timeWords_mem (s d : ℚ) :
    ∀ (ws : List String) (i : Nat) (x : TimedWord), x ∈ timeWords s d i ws →
      ∃ j : Nat, i ≤ j ∧ x.2.1 = s + (j : ℚ) * d ∧ x.2.2 = s + (j : ℚ) * d + d := by
  intro ws
  induction ws with
  | nil => intro i x hx; simp [timeWords] at hx
  | cons w ws ih =>
    intro i x hx
    rcases List.mem_cons.mp hx with hx | hx
    · exact ⟨i, Nat.le_refl _, by rw [hx], by rw [hx]⟩
    · obtain ⟨j, hij, h1, h2⟩ := ih (i + 1) x hx
      exact ⟨j, by omega, h1, h2⟩

theorem timeWords_start_le_end (s d : ℚ) (hd : 0 ≤ d) (ws : List String) (i : Nat) :
    ∀ x ∈ timeWords s d i ws, x.2.1 ≤ x.2.2 := by
  intro x hx
  obtain ⟨j, _, h1, h2⟩ := timeWords_mem s d ws i x hx
  rw [h1, h2]
  linarith

theorem timeWords_sorted (s d : ℚ) (hd : 0 ≤ d) :
    ∀ (ws : List String) (i : Nat),
      (timeWords s d i ws).Pairwise (fun a b => a.2.1 ≤ b.2.1) := by
  intro ws
  induction ws with
  | nil => intro i; simp [timeWords]
  | cons w ws ih =>
    intro i
    rw [timeWords]
    refine List.Pairwise.cons ?_ (ih (i + 1))
    intro x hx
    obtain ⟨j, hij, h1, _⟩ := timeWords_mem s d ws (i + 1) x hx
    rw [h1]
    have hij' : (i : ℚ) ≤ (j : ℚ) := by exact_mod_cast (by omega : i ≤ j)
    have hm := mul_le_mul_of_nonneg_right hij' hd
    simp only []
    linarith

theorem lastEnd_ge (a : ℚ) :
    ∀ (l : List TimedWord) (w : TimedWord),
      (∀ x ∈ w :: l, a ≤ x.2.1) → (∀ x ∈ w :: l, x.2.1 ≤ x.2.2) →
      a ≤ lastEnd w l := by
  intro l
  induction l with
  | nil =>
    intro w h1 h2
    have ha := h1 w (List.mem_cons_self ..)
    have hb := h2 w (List.mem_cons_self ..)
    rw [lastEnd]
    linarith
  | cons w' l ih =>
    intro w h1 h2
    rw [lastEnd]
    apply ih w'
    · intro x hx; exact h1 x (List.mem_cons_of_mem _ hx)
    · intro x hx; exact h2 x (List.mem_cons_of_mem _ hx)

theorem chunkCues_start_le_end (km1 : Nat) :
    ∀ ws : List TimedWord,
      List.Pairwise (fun a b : TimedWord => a.2.1 ≤ b.2.1) ws →
      (∀ x ∈ ws, x.2.1 ≤ x.2.2) →
      ∀ idx, ∀ c ∈ chunkCues km1 idx ws, c.start ≤ c.end_ := by
  refine chunkInduction km1 ?_ ?_
  · intro _ _ idx c hc
    rw [chunkCues_nil] at hc
    simp at hc
  · intro w rest ih hpw hle idx c hc
    rw [chunkCues_cons] at hc
    rcases List.mem_cons.mp hc with hc | hc
    · subst hc
      show w.2.1 ≤ lastEnd w (rest.take km1)
      apply lastEnd_ge
      · intro x hx
        rcases List.mem_cons.mp hx with hx | hx
        · rw [hx]
        · exact List.rel_of_pairwise_cons hpw (List.take_subset _ _ hx)
      · intro x hx
        rcases List.mem_cons.mp hx with hx | hx
        · rw [hx]; exact hle w (List.mem_cons_self ..)
        · exact hle x (List.mem_cons_of_mem _ (List.take_subset _ _ hx))
    · refine ih ?_ ?_ (idx + 1) c hc
      · exact ((List.pairwise_cons.mp hpw).2).sublist (List.drop_sublist _ _)
      · intro x hx
        exact hle x (List.mem_cons_of_mem _ (List.drop_subset _ _ hx))

/-! ### Segment-mode lemmas -/

theorem segmentCues_length :
    ∀ (segs : List Segment) (idx : Nat), (segmentCues idx segs).length = segs.length := by
  intro segs
  induction segs with
  | nil => intro idx; rfl
  | cons s rest ih => intro idx; simp [segmentCues, ih]

theorem segmentCues_map_index :
    ∀ (segs : List Segment) (idx : Nat),
      (segmentCues idx segs).map Cue.index = List.range' idx segs.length := by
  intro segs
  induction segs with
  | nil => intro idx; rfl
  | cons s rest ih =>
    intro idx
    simp only [segmentCues, List.map_cons, List.length_cons, List.range'_succ]
    rw [ih]

theorem segmentCues_getElem? :
    ∀ (segs : List Segment) (idx i : Nat),
      (segmentCues idx segs)[i]? = (segs[i]?).map
        (fun s => { index := idx + i, start := s.start, end_ := s.end_,
                    text := pyStrip s.text }) := by
  intro segs
  induction segs with
  | nil => intro idx i; simp [segmentCues]
  | cons s rest ih =>
    intro idx i
    cases i with
    | zero => simp [segmentCues]
    | succ i =>
      simp only [segmentCues, List.getElem?_cons_succ]
      rw [ih (idx + 1) i]
      have h : idx + 1 + i = idx + (i + 1) := by omega
      rw [h]

theorem segmentCues_start_le_end :
    ∀ (segs : List Segment) (idx : Nat), (∀ s ∈ segs, s.start ≤ s.end_) →
      ∀ c ∈ segmentCues idx segs, c.start ≤ c.end_ := by
  intro segs
  induction segs with
  | nil => intro idx h c hc; simp [segmentCues] at hc
  | cons s rest ih =>
    intro idx h c hc
    rcases List.mem_cons.mp hc with hc | hc
    · subst hc; exact h s (List.mem_cons_self ..)
    · exact ih (idx + 1) (fun x hx => h x (List.mem_cons_of_mem _ hx)) c hc

/-! ### Mode selection and empty-segment lemmas -/

theorem synthesize_word_mode (segs : List Segment) (k : Nat) (hk : 0 < k) :
    synthesize segs (some (k : ℤ)) = chunkCues (k - 1) 1 (allWordsTimed segs) := by
  simp only [synthesize]
  rw [if_pos (by exact_mod_cast hk)]
  norm_num

theorem synthesize_segment_mode (segs : List Segment) (wpl : Option Int)
    (h : wpl = none ∨ ∃ k, wpl = some k ∧ k ≤ 0) :
    synthesize segs wpl = segmentCues 1 segs := by
  rcases h with h | ⟨k, hk, hk0⟩
  · rw [h]; rfl
  · rw [hk]
    simp only [synthesize]
    rw [if_neg (by omega : ¬ (0 : ℤ) < k)]

theorem allWordsTimed_filter :
    ∀ segs : List Segment,
      allWordsTimed (segs.filter (fun s => !(strWords s.text).isEmpty)) =
        allWordsTimed segs := by
  intro segs
  induction segs with
  | nil => rfl
  | cons seg rest ih =>
    by_cases h : (strWords seg.text).isEmpty = true
    · have hseg : segWordsTimed seg = [] := by rw [segWordsTimed_eq, if_pos h]
      simp only [List.filter_cons, h, Bool.not_true, allWordsTimed, hseg,
        List.nil_append, if_false]
      exact ih
    · have h' : (strWords seg.text).isEmpty = false := by
        cases hb : (strWords seg.text).isEmpty
        · rfl
        · exact absurd hb h
      simp only [List.filter_cons, h', Bool.not_false, if_true, allWordsTimed]
      rw [ih]

/-! ### Resolver lemmas -/

theorem schemeSplit_slash (t : List Char) : schemeSplit ('/' :: t) = ([], '/' :: t) := by
  unfold schemeSplit
  cases h : splitOnceChar ':' ('/' :: t) with
  | none => rfl
  | some pp =>
    obtain ⟨pre, post⟩ := pp
    rw [splitOnceChar, if_neg (by decide)] at h
    obtain ⟨q, hq, hfq⟩ := Option.map_eq_some'.mp h
    have hpre : pre = '/' :: q.1 := by
      injection hfq with h1 h2
      exact h1.symm
    subst hpre
    rfl

theorem scheme_of_abs (r : String) (h : posixIsAbs r = true) : (urlparse r).scheme = "" := by
  obtain ⟨data⟩ := r
  cases data with
  | nil => simp [posixIsAbs] at h
  | cons c t =>
    simp only [posixIsAbs, decide_eq_true_eq] at h
    subst h
    simp [urlparse, schemeSplit_slash]

theorem not_abs_of_scheme (r : String)
    (h : (urlparse r).scheme = "http" ∨ (urlparse r).scheme = "https") :
    posixIsAbs r = false := by
  cases habs : posixIsAbs r
  · rfl
  · have hs := scheme_of_abs r habs
    rcases h with h | h <;> rw [hs] at h <;> exact absurd h (by decide)

theorem internalCandidate_eq (fs : String → Bool) (r : String) (rel : List String)
    (hscheme : (urlparse r).scheme = "http" ∨ (urlparse r).scheme = "https")
    (hhost : hostnameOf (urlparse r).netloc = HOSTNAME)
    (hrel : relativeToUpload (unquote (urlparse r).path) = some rel) :
    internalCandidate fs r =
      (if fs (joinParts UPLOAD_HOST rel) then some (joinParts UPLOAD_HOST rel)
       else if fs (joinParts UPLOAD_CONT rel) then some (joinParts UPLOAD_CONT rel)
       else none) := by
  have hcond : (((urlparse r).scheme == "http" || (urlparse r).scheme == "https") &&
      (hostnameOf (urlparse r).netloc == HOSTNAME)) = true := by
    rcases hscheme with h | h <;> simp [h, hhost]
  simp only [internalCandidate, hcond, if_true, hrel]
  cases hfs1 : fs (joinParts UPLOAD_HOST rel) <;>
    cases hfs2 : fs (joinParts UPLOAD_CONT rel) <;>
      simp [List.findSome?, hfs1, hfs2]

theorem resolve_of_not_abs (fs : String → Bool) (dl : String → Except String String)
    (r : String) (h : posixIsAbs r = false) :
    resolve_media_path fs dl r =
      (match internalCandidate fs r with
       | some local_file => Except.ok (local_file, false)
       | none => (dl r).map (fun p => (p, true))) := by
  unfold resolve_media_path
  rw [h]
  simp

/-! ### Claim theorems

The concrete evaluations below need the kernel to compute with `ℚ`; the
arithmetic operations on `Rat` are only `@[irreducible]` for elaboration
performance, so they are made semireducible locally. -/

section ClaimTheorems

attribute [local semireducible] Rat.add Rat.mul Rat.sub Rat.inv

/-- Claim C1: for positive `wordsPerLine = k`, word-mode synthesis produces
exactly `⌈W/k⌉` cues (`(W + k - 1) / k` in natural-number arithmetic, for
`W` the flat word count), with indices `1, 2, …` in order; the cue texts
are exactly the consecutive `k`-chunks of the flat word sequence joined by
single spaces (all chunks nonempty, all of size `k` except possibly the
last, their concatenation the flat word sequence); joining all cue texts
with spaces reconstructs the flat word sequence joined by spaces. -/
theorem claim_C1 (segs : List Segment) (k : Nat) (hk : 0 < k) :
    (synthesize segs (some (k : ℤ))).length = ((allWords segs).length + k - 1) / k
    ∧ (synthesize segs (some (k : ℤ))).map Cue.index =
        List.range' 1 (synthesize segs (some (k : ℤ))).length
    ∧ (synthesize segs (some (k : ℤ))).map Cue.text =
        (specChunks k (allWords segs)).map (String.intercalate " ")
    ∧ (specChunks k (allWords segs)).flatten = allWords segs
    ∧ (∀ c ∈ (specChunks k (allWords segs)).dropLast, c.length = k)
    ∧ (∀ c ∈ specChunks k (allWords segs), c ≠ [] ∧ c.length ≤ k)
    ∧ String.intercalate " " ((synthesize segs (some (k : ℤ))).map Cue.text) =
        String.intercalate " " (allWords segs) := by
  obtain ⟨km1, rfl⟩ : ∃ km1, k = km1 + 1 := ⟨k - 1, (Nat.succ_pred_eq_of_pos hk).symm⟩
  have hsyn := synthesize_word_mode segs (km1 + 1) hk
  rw [Nat.add_sub_cancel] at hsyn
  have htext : (synthesize segs (some ((km1 + 1 : Nat) : ℤ))).map Cue.text =
      (specChunks (km1 + 1) (allWords segs)).map (String.intercalate " ") := by
    rw [hsyn, chunkCues_map_text km1 (allWordsTimed segs) 1]
    rw [← allWordsTimed_map_fst segs, specChunks_map km1 _ (allWordsTimed segs)]
    rw [List.map_map]
    rfl
  refine ⟨?_, ?_, htext, specChunks_flatten km1 _, specChunks_dropLast_length km1 _,
      specChunks_mem km1 _, ?_⟩
  · rw [hsyn, chunkCues_length km1 (allWordsTimed segs) 1, allWordsTimed_length]
    have h2 : (allWords segs).length + (km1 + 1) - 1 = (allWords segs).length + km1 := by
      omega
    rw [h2]
  · rw [hsyn]
    exact chunkCues_map_index km1 (allWordsTimed segs) 1
  · rw [htext, intercalate_flatten " " (specChunks (km1 + 1) (allWords segs))
      (fun c hc => (specChunks_mem km1 _ c hc).1), specChunks_flatten km1 _]

/-- Witness for C1 at `segs = [{0,10,"a b c"}, {10,12,"d"}]`, `k = 2`:
four flat words, two cues, texts `"a b"` / `"c d"` (the second chunk spans
the segment boundary), and the space-joined reconstruction. -/
theorem claim_C1_witness :
    0 < 2
    ∧ (synthesize [⟨0, 10, "a b c"⟩, ⟨10, 12, "d"⟩] (some ((2 : Nat) : ℤ))).length =
        (((allWords [⟨0, 10, "a b c"⟩, ⟨10, 12, "d"⟩]).length + 2 - 1) / 2)
    ∧ String.intercalate " "
        ((synthesize [⟨0, 10, "a b c"⟩, ⟨10, 12, "d"⟩] (some ((2 : Nat) : ℤ))).map Cue.text) =
        String.intercalate " " (allWords [⟨0, 10, "a b c"⟩, ⟨10, 12, "d"⟩])
    ∧ (synthesize [⟨0, 10, "a b c"⟩, ⟨10, 12, "d"⟩] (some ((2 : Nat) : ℤ))).map Cue.text =
        ["a b", "c d"] :=
  ⟨by decide, (claim_C1 [⟨0, 10, "a b c"⟩, ⟨10, 12, "d"⟩] 2 (by decide)).1,
   (claim_C1 [⟨0, 10, "a b c"⟩, ⟨10, 12, "d"⟩] 2 (by decide)).2.2.2.2.2.2, by decide⟩

/-- Claim C2: the per-word timings computed by the code equal the spec's
linear interpolation `[s + i·(e-s)/n, s + (i+1)·(e-s)/n)` (exactly, over
`ℚ`); word-mode cues take the synthetic start of their first word and the
synthetic end of their last word (the `specCues` refinement); and the
concrete example `{start=0, end=10, text="a b c d"}`, `wordsPerLine=2`
yields exactly `[{1,0,5,"a b"}, {2,5,10,"c d"}]`. -/
theorem claim_C2 :
    (∀ seg : Segment, segWordsTimed seg = specTimedWords seg)
    ∧ (∀ (segs : List Segment) (k : Nat), 0 < k →
        synthesize segs (some (k : ℤ)) = specCues 1 (specChunks k (allWordsTimed segs)))
    ∧ synthesize [⟨0, 10, "a b c d"⟩] (some 2) =
        [⟨1, 0, 5, "a b"⟩, ⟨2, 5, 10, "c d"⟩] := by
  refine ⟨segWordsTimed_eq_spec, ?_, by decide⟩
  intro segs k hk
  obtain ⟨km1, rfl⟩ : ∃ km1, k = km1 + 1 := ⟨k - 1, (Nat.succ_pred_eq_of_pos hk).symm⟩
  have hsyn := synthesize_word_mode segs (km1 + 1) hk
  rw [Nat.add_sub_cancel] at hsyn
  rw [hsyn]
  exact chunkCues_eq_specCues km1 (allWordsTimed segs) 1

/-- Witness for C2: the word-mode hypothesis `0 < k` discharged at `k = 2`
on the claim's own example segment. -/
theorem claim_C2_witness :
    segWordsTimed ⟨0, 10, "a b c d"⟩ = specTimedWords ⟨0, 10, "a b c d"⟩
    ∧ 0 < 2
    ∧ synthesize [⟨0, 10, "a b c d"⟩] (some ((2 : Nat) : ℤ)) =
        specCues 1 (specChunks 2 (allWordsTimed [⟨0, 10, "a b c d"⟩])) :=
  ⟨claim_C2.1 ⟨0, 10, "a b c d"⟩, by decide,
   claim_C2.2.1 [⟨0, 10, "a b c d"⟩] 2 (by decide)⟩

/-- Claim C3: with `wordsPerLine` absent or non-positive, synthesis is a
structure-preserving map: `len(segments)` cues, indices `1..n` in input
order, each cue copying its segment's `start`/`end` and carrying the
stripped text; no re-timing. -/
theorem claim_C3 (segs : List Segment) (wpl : Option Int)
    (h : wpl = none ∨ ∃ k, wpl = some k ∧ k ≤ 0) :
    (synthesize segs wpl).length = segs.length
    ∧ (synthesize segs wpl).map Cue.index = List.range' 1 segs.length
    ∧ ∀ i : Nat, (synthesize segs wpl)[i]? = (segs[i]?).map
        (fun s => { index := i + 1, start := s.start, end_ := s.end_,
                    text := pyStrip s.text }) := by
  rw [synthesize_segment_mode segs wpl h]
  refine ⟨segmentCues_length segs 1, segmentCues_map_index segs 1, ?_⟩
  intro i
  rw [segmentCues_getElem? segs 1 i]
  have h1 : 1 + i = i + 1 := by omega
  rw [h1]

/-- Witness for C3 at a one-segment list with padded text and `wpl = none`. -/
theorem claim_C3_witness :
    (synthesize [⟨1, 2, " x "⟩] none).length = 1
    ∧ (synthesize [⟨1, 2, " x "⟩] none).map Cue.index = List.range' 1 1
    ∧ (synthesize [⟨1, 2, " x "⟩] none)[0]? =
        some { index := 1, start := 1, end_ := 2, text := "x" } := by
  have h := claim_C3 [⟨1, 2, " x "⟩] none (Or.inl rfl)
  refine ⟨h.1, h.2.1, ?_⟩
  rw [h.2.2 0]
  decide

/-- Claim C4: a reference that is an absolute path whose target exists
resolves to exactly that (rendered) path with `isTransient = false`, and no
other strategy is attempted: the outcome does not depend on the download
function at all, nor on the filesystem outside the referenced path itself
(so no internal-URL probe can influence it), even when the reference also
looks like an internal URL. -/
theorem claim_C4 (fs fs' : String → Bool) (dl dl' : String → Except String String)
    (r : String) (habs : posixIsAbs r = true)
    (hex : fs (renderPath r) = true) (hex' : fs' (renderPath r) = true) :
    resolve_media_path fs dl r = Except.ok (renderPath r, false)
    ∧ resolve_media_path fs' dl' r = resolve_media_path fs dl r
    ∧ (renderPath r = r → resolve_media_path fs dl r = Except.ok (r, false)) := by
  have h1 : resolve_media_path fs dl r = Except.ok (renderPath r, false) := by
    unfold resolve_media_path
    rw [habs, hex]
    rfl
  have h2 : resolve_media_path fs' dl' r = Except.ok (renderPath r, false) := by
    unfold resolve_media_path
    rw [habs, hex']
    rfl
  exact ⟨h1, h2.trans h1.symm, fun hr => by rw [hr] at h1; exact h1⟩

/-- Witness for C4 at the existing absolute path `/data/a.mp4`, with two
unrelated filesystems and downloaders giving the same result. -/
theorem claim_C4_witness :
    resolve_media_path (fun s => s == "/data/a.mp4") (fun _ => Except.error "e") "/data/a.mp4"
      = Except.ok ("/data/a.mp4", false)
    ∧ resolve_media_path (fun _ => true) (fun _ => Except.ok "/dl") "/data/a.mp4"
      = resolve_media_path (fun s => s == "/data/a.mp4") (fun _ => Except.error "e")
          "/data/a.mp4" := by
  have h := claim_C4 (fun s => s == "/data/a.mp4") (fun _ => true)
      (fun _ => Except.error "e") (fun _ => Except.ok "/dl") "/data/a.mp4"
      (by decide) (by decide) (by decide)
  exact ⟨h.2.2 (by decide), h.2.1⟩

/-- Claim C5: an HTTP(S) reference whose parsed host component equals the
configured internal hostname (exact host equality by construction of
`urlparse`/`hostnameOf`, never a substring match on the whole reference)
and whose percent-decoded path strips against `/upload` is remapped: the
two configured mount roots are probed in order and the first existing
candidate is returned with `isTransient = false`. -/
theorem claim_C5 (fs : String → Bool) (dl : String → Except String String)
    (r : String) (rel : List String)
    (hscheme : (urlparse r).scheme = "http" ∨ (urlparse r).scheme = "https")
    (hhost : hostnameOf (urlparse r).netloc = HOSTNAME)
    (hrel : relativeToUpload (unquote (urlparse r).path) = some rel) :
    (fs (joinParts UPLOAD_HOST rel) = true →
      resolve_media_path fs dl r = Except.ok (joinParts UPLOAD_HOST rel, false))
    ∧ (fs (joinParts UPLOAD_HOST rel) = false → fs (joinParts UPLOAD_CONT rel) = true →
      resolve_media_path fs dl r = Except.ok (joinParts UPLOAD_CONT rel, false)) := by
  have habs := not_abs_of_scheme r hscheme
  have hres := resolve_of_not_abs fs dl r habs
  have hic := internalCandidate_eq fs r rel hscheme hhost hrel
  constructor
  · intro h1
    rw [hres, hic, if_pos h1]
  · intro h1 h2
    rw [hres, hic, if_neg (by simp [h1]), if_pos h2]

/-- Witness for C5: a percent-encoded internal upload URL resolving to the
host-bind-mount candidate, which exists. -/
theorem claim_C5_witness :
    resolve_media_path (fun s => s == "/srv/media/upload/file name.mp4")
        (fun _ => Except.error "e")
        "http://ncatoolkit.kingdomautomations.com/upload/file%20name.mp4"
      = Except.ok ("/srv/media/upload/file name.mp4", false) := by
  have h := claim_C5 (fun s => s == "/srv/media/upload/file name.mp4")
      (fun _ => Except.error "e")
      "http://ncatoolkit.kingdomautomations.com/upload/file%20name.mp4" ["file name.mp4"]
      (Or.inl (by decide)) (by decide) (by decide)
  exact (h.1 (by decide)).trans (by decide)

/-- Claim C6: resolution fails exactly when the direct-path check fails,
the internal-URL strategy yields no existing candidate (which covers a
matching host/prefix whose relative path cannot be computed or whose
candidates do not exist), and the fallback download fails — in which case
the download error is propagated unmodified; whenever the first two
strategies fail, the result is exactly the download outcome. -/
theorem claim_C6 (fs : String → Bool) (dl : String → Except String String) (r : String) :
    (∀ e, resolve_media_path fs dl r = Except.error e ↔
      ((posixIsAbs r && fs (renderPath r)) = false ∧ internalCandidate fs r = none ∧
        dl r = Except.error e))
    ∧ ((posixIsAbs r && fs (renderPath r)) = false → internalCandidate fs r = none →
      resolve_media_path fs dl r = (dl r).map (fun p => (p, true))) := by
  constructor
  · intro e
    unfold resolve_media_path
    cases hc : (posixIsAbs r && fs (renderPath r)) with
    | true => simp
    | false =>
      simp only [Bool.false_eq_true, if_false]
      cases hi : internalCandidate fs r with
      | some c => simp
      | none =>
        cases hd : dl r with
        | ok p => simp [Except.map]
        | error e' => simp [Except.map]
  · intro h1 h2
    unfold resolve_media_path
    rw [h1, h2]
    rfl

/-- Witness for C6: with an empty filesystem, a failing download propagates
its error, and a succeeding download is returned as a transient file. -/
theorem claim_C6_witness :
    resolve_media_path (fun _ => false) (fun _ => Except.error "boom") "http://a.example/x"
      = Except.error "boom"
    ∧ resolve_media_path (fun _ => false) (fun _ => Except.ok "/dl") "http://a.example/x"
      = Except.ok ("/dl", true) := by
  have h1 := claim_C6 (fun _ => false) (fun _ => Except.error "boom") "http://a.example/x"
  have h2 := claim_C6 (fun _ => false) (fun _ => Except.ok "/dl") "http://a.example/x"
  exact ⟨(h1.1 "boom").mpr ⟨by decide, by decide, rfl⟩,
    (h2.2 (by decide) (by decide)).trans (by decide)⟩

/-- Claim C7 counterexample: the claim asserts that a segment whose text is
empty after trimming contributes zero cues in BOTH modes; in segment mode
the code emits one cue per segment unconditionally, so the zero-word
segment `{0, 1, "  "}` yields one cue (with empty text), not zero. -/
theorem claim_C7_counterexample :
    strWords "  " = []
    ∧ synthesize [⟨0, 1, "  "⟩] none = [⟨1, 0, 1, ""⟩]
    ∧ (synthesize [⟨0, 1, "  "⟩] none).length = 1 := by decide

/-- Claim C7 (amended): in word-rebucketed mode, segments that are empty
after trimming contribute no words and hence no cues (removing them does
not change the output at all), and cue indices remain contiguous from 1;
in segment mode every segment — including an empty-text one — contributes
exactly one cue. -/
theorem claim_C7_amended (segs : List Segment) (k : Nat) (hk : 0 < k) :
    synthesize segs (some (k : ℤ)) =
      synthesize (segs.filter (fun s => !(strWords s.text).isEmpty)) (some (k : ℤ))
    ∧ (synthesize segs (some (k : ℤ))).map Cue.index =
        List.range' 1 (synthesize segs (some (k : ℤ))).length
    ∧ (synthesize segs none).length = segs.length := by
  obtain ⟨km1, rfl⟩ : ∃ km1, k = km1 + 1 := ⟨k - 1, (Nat.succ_pred_eq_of_pos hk).symm⟩
  have hs1 := synthesize_word_mode segs (km1 + 1) hk
  have hs2 := synthesize_word_mode (segs.filter (fun s => !(strWords s.text).isEmpty))
    (km1 + 1) hk
  rw [Nat.add_sub_cancel] at hs1 hs2
  refine ⟨?_, ?_, ?_⟩
  · rw [hs1, hs2, allWordsTimed_filter]
  · rw [hs1]
    exact chunkCues_map_index km1 (allWordsTimed segs) 1
  · rw [synthesize_segment_mode segs none (Or.inl rfl)]
    exact segmentCues_length segs 1

/-- Witness for the amended C7 at `k = 1` with one empty and one nonempty
segment. -/
theorem claim_C7_amended_witness :
    0 < 1
    ∧ synthesize [⟨0, 1, ""⟩, ⟨1, 3, "a b"⟩] (some ((1 : Nat) : ℤ)) =
        synthesize ([⟨0, 1, ""⟩, ⟨1, 3, "a b"⟩].filter
          (fun s => !(strWords s.text).isEmpty)) (some ((1 : Nat) : ℤ))
    ∧ (synthesize [⟨0, 1, ""⟩, ⟨1, 3, "a b"⟩] (some ((1 : Nat) : ℤ))).map Cue.index =
        List.range' 1 (synthesize [⟨0, 1, ""⟩, ⟨1, 3, "a b"⟩] (some ((1 : Nat) : ℤ))).length
    ∧ (synthesize [⟨0, 1, ""⟩, ⟨1, 3, "a b"⟩] none).length = 2 :=
  ⟨by decide, (claim_C7_amended [⟨0, 1, ""⟩, ⟨1, 3, "a b"⟩] 1 (by decide)).1,
   (claim_C7_amended [⟨0, 1, ""⟩, ⟨1, 3, "a b"⟩] 1 (by decide)).2.1,
   (claim_C7_amended [⟨0, 1, ""⟩, ⟨1, 3, "a b"⟩] 1 (by decide)).2.2⟩

/-- Claim C8 counterexample: the claim asserts the synthesizer rejects
`end < start` with an explicit error; instead the code silently produces
negative-duration cues: in segment mode `{1, 0, "a"}` yields the cue
`{1, 1, 0, "a"}` (end `0` < start `1`), and in word mode `{2, 1, "a b"}`
with `wordsPerLine = 1` yields cues whose ends precede their starts. -/
theorem claim_C8_counterexample :
    synthesize [⟨1, 0, "a"⟩] none = [⟨1, 1, 0, "a"⟩]
    ∧ synthesize [⟨2, 1, "a b"⟩] (some 1) = [⟨1, 2, 3/2, "a"⟩, ⟨2, 3/2, 1, "b"⟩]
    ∧ (0 : ℚ) < 1 := by
  refine ⟨by decide, by decide, by decide⟩

/-- Claim C8 (amended): the synthesizer performs no validation and never
raises: a segment with `end < start` silently yields a cue with
`end < start` (see the counterexample), and `start == end` is accepted.
What does hold: when every segment satisfies `start ≤ end`, segment-mode
cues satisfy `start ≤ end`; and word-mode cues drawn from a single segment
with `start ≤ end` satisfy `start ≤ end`. -/
theorem claim_C8_amended :
    (∀ segs : List Segment, (∀ s ∈ segs, s.start ≤ s.end_) →
      ∀ c ∈ synthesize segs none, c.start ≤ c.end_)
    ∧ (∀ (seg : Segment) (k : Nat), 0 < k → seg.start ≤ seg.end_ →
      ∀ c ∈ synthesize [seg] (some (k : ℤ)), c.start ≤ c.end_) := by
  constructor
  · intro segs h c hc
    rw [synthesize_segment_mode segs none (Or.inl rfl)] at hc
    exact segmentCues_start_le_end segs 1 h c hc
  · intro seg k hk hse c hc
    obtain ⟨km1, rfl⟩ : ∃ km1, k = km1 + 1 := ⟨k - 1, (Nat.succ_pred_eq_of_pos hk).symm⟩
    have hs1 := synthesize_word_mode [seg] (km1 + 1) hk
    rw [Nat.add_sub_cancel] at hs1
    rw [hs1] at hc
    have hws : allWordsTimed [seg] = segWordsTimed seg := by
      simp [allWordsTimed]
    rw [hws, segWordsTimed_eq] at hc
    by_cases hemp : (strWords seg.text).isEmpty = true
    · rw [if_pos hemp, chunkCues_nil] at hc
      simp at hc
    · rw [if_neg hemp] at hc
      have hd : 0 ≤ (seg.end_ - seg.start) / ((strWords seg.text).length : ℚ) := by
        apply div_nonneg
        · linarith
        · positivity
      exact chunkCues_start_le_end km1 _ (timeWords_sorted _ _ hd _ 0)
        (timeWords_start_le_end _ _ hd _ 0) 1 c hc

/-- Witness for the amended C8 at a well-formed one-segment input in each
mode. -/
theorem claim_C8_amended_witness :
    (0 : ℚ) ≤ 1
    ∧ (∀ c ∈ synthesize [⟨0, 1, "a"⟩] none, c.start ≤ c.end_)
    ∧ (∀ c ∈ synthesize [⟨0, 1, "a b"⟩] (some ((2 : Nat) : ℤ)), c.start ≤ c.end_) :=
  ⟨by decide, claim_C8_amended.1 [⟨0, 1, "a"⟩] (by decide),
   claim_C8_amended.2 ⟨0, 1, "a b"⟩ 2 (by decide) (by decide)⟩

/-- Claim C9 (divergence witness): in the file-writing response branch,
when the text artifact is NOT requested the `else` arm assigns `text_file`
while the return statement reads `text_filename`, so instead of returning a
null text artifact the function raises `UnboundLocalError` — for every
storage root and job id. -/
theorem claim_C9_unbound_text_filename (storage job_id : String) :
    fileResponse storage false true true job_id =
      Except.error "UnboundLocalError: text_filename" := by
  rfl

/-- Claim C10 counterexample: the claim asserts that when a later step
raises, the downloaded temp file is not deleted; but the cleanup runs
before the response-building step, so when the non-direct response branch
raises (`include_text = false` hits the `text_filename` bug) the function
propagates the error with the downloaded temp file ALREADY deleted. -/
theorem claim_C10_counterexample :
    process_transcribe_media (fun _ => true) (fun _ => Except.ok "/tmp/dl")
        (fun _ => Except.ok ⟨"t", []⟩) "http://remote.example/x" false true true none false
        "/st" "job"
      = (Except.error "UnboundLocalError: text_filename", true) := by decide

/-- Claim C10 (amended): a locally-resolved file is never deleted; if
resolution itself fails nothing is deleted; if transcription raises, the
downloaded temp file is NOT deleted; but once transcription succeeds the
temp file is deleted (given it exists on disk) before the response is
built, whether the remaining steps return normally or raise. -/
theorem claim_C10_amended (fs : String → Bool) (dl : String → Except String String)
    (tr : String → Except String TranscriptionResult) (url : String)
    (it isr isg : Bool) (wpl : Option Int) (direct : Bool) (st job : String) :
    (∀ p, resolve_media_path fs dl url = Except.ok (p, false) →
      (process_transcribe_media fs dl tr url it isr isg wpl direct st job).2 = false)
    ∧ (∀ e, resolve_media_path fs dl url = Except.error e →
      process_transcribe_media fs dl tr url it isr isg wpl direct st job =
        (Except.error e, false))
    ∧ (∀ p e, resolve_media_path fs dl url = Except.ok (p, true) → tr p = Except.error e →
      process_transcribe_media fs dl tr url it isr isg wpl direct st job =
        (Except.error e, false))
    ∧ (∀ p result, resolve_media_path fs dl url = Except.ok (p, true) →
      tr p = Except.ok result → fs p = true →
      (process_transcribe_media fs dl tr url it isr isg wpl direct st job).2 = true) := by
  refine ⟨?_, ?_, ?_, ?_⟩
  · intro p hp
    simp only [process_transcribe_media, hp]
    cases htr : tr p with
    | error e => rfl
    | ok result =>
      simp only [Bool.false_and]
      cases direct with
      | true => rfl
      | false =>
        cases hfr : fileResponse st it isr isg job with
        | ok v => rfl
        | error e => rfl
  · intro e he
    simp only [process_transcribe_media, he]
  · intro p e hp htr
    simp only [process_transcribe_media, hp, htr]
  · intro p result hp htr hfs
    simp only [process_transcribe_media, hp, htr, hfs, Bool.and_true]
    cases direct with
    | true => rfl
    | false =>
      cases hfr : fileResponse st it isr isg job with
      | ok v => rfl
      | error e => rfl

/-- Witness for the amended C10: a remote URL is downloaded, transcription
succeeds, and the temp file is deleted even though the non-direct response
branch then raises. -/
theorem claim_C10_amended_witness :
    (process_transcribe_media (fun _ => true) (fun _ => Except.ok "/tmp/dl")
      (fun _ => Except.ok ⟨"t", []⟩) "http://remote.example/x" false true true none false
      "/st" "job").2 = true :=
  (claim_C10_amended (fun _ => true) (fun _ => Except.ok "/tmp/dl")
      (fun _ => Except.ok ⟨"t", []⟩) "http://remote.example/x" false true true none false
      "/st" "job").2.2.2 "/tmp/dl" ⟨"t", []⟩ (by decide) (by decide) (by decide)

end ClaimTheorems

end MediaTranscribe
